import Mathlib

/-!
Verification of the incremental indexing pipeline of `drew`
(`src/vectorstore.ts`, class `DrewVectorStore`, and `src/upsert-worker.ts`).

The development is a shallow embedding: the pure pieces of the pipeline
(`determineBatchSize`, `diffItems`, `embedBatchWithRetry`, the per-chunk
embedding loop of `indexAll`, `delete`) are translated into executable Lean
functions, and the effectful run controller `indexAll` is translated into an
explicit state-passing function over a modelled storage state, with the
fallible collaborators (the embedding provider, the dedicated upsert worker,
the storage engine's bulk fetch and per-id delete) represented by explicit
environment parameters describing their observable behaviour.
-/

namespace Drew

/-- An item prepared for indexing (`IndexableItem` in `src/vectorstore.ts`):
searchable text, the encoded document id, the field map to store, and the
content checksum used for change detection. -/
structure IndexableItem where
  id : String
  text : String
  fields : List (String × String)
  checksum : String
deriving DecidableEq

/-- A document held by the zvec collection.  `contentChecksum` models the value
of `JSON.parse(doc.fields.content).checksum`: `indexAll` always stores
`fields.content = JSON.stringify(node)` with `node.checksum = item.checksum`,
so for documents written by this pipeline the parsed checksum equals the
item's checksum; `none` models content that does not parse or has no
checksum field. -/
structure StoredDoc where
  embedding : List Int
  fields : List (String × String)
  contentChecksum : Option String
deriving DecidableEq

/-- The zvec collection, modelled as an association list keyed by document id. -/
abbrev Store := List (String × StoredDoc)

/-- Lookup of one id, modelling `collection.fetchSync` restricted to a single
key (`existing[item.id]` after the bulk fetch, and `docs[encoded]`). -/
def fetchOne : Store → String → Option StoredDoc
  | [], _ => none
  | e :: rest, k => if e.1 = k then some e.2 else fetchOne rest k

/-- `collection.upsertSync` for a single document: replace the document with
this id if present, otherwise append it. -/
def upsertOne : Store → String → StoredDoc → Store
  | [], k, d => [(k, d)]
  | e :: rest, k, d => if e.1 = k then (k, d) :: rest else e :: upsertOne rest k d

/-- `collection.deleteSync`: remove every document with this id. -/
def deleteOne : Store → String → Store
  | [], _ => []
  | e :: rest, k => if e.1 = k then deleteOne rest k else e :: deleteOne rest k

/-- A storage mutation issued by one run of `indexAll`, in issue order. -/
inductive StoreEvent where
  | upsertEv (id : String) (doc : StoredDoc)
  | deleteEv (id : String)
deriving DecidableEq

/-- Whether an event is an upsert. -/
def StoreEvent.isUpsert : StoreEvent → Bool
  | .upsertEv _ _ => true
  | .deleteEv _ => false

/-- Whether an event is a delete. -/
def StoreEvent.isDelete : StoreEvent → Bool
  | .upsertEv _ _ => false
  | .deleteEv _ => true

/-- `determineBatchSize` from `src/vectorstore.ts` (the variant clamping to
`[16, 128]`, fed by `os.freemem()` when no override is given; the memory
argument is always supplied here, which is the pure, deterministic case).
`Math.floor(free * 0.3)` is modelled as `free * 3 / 10` in exact natural
arithmetic. -/
def determineBatchSize (totalItems : Nat) (freeMem : Nat) : Nat :=
  let memoryBudget := freeMem * 3 / 10
  let maxByMemory := memoryBudget / (2 * 1024 * 1024)
  let clamped := Nat.max 16 (Nat.min 128 maxByMemory)
  Nat.min clamped totalItems

/-- The `determineBatchSize` variant from the second source copy of
`vectorstore.ts`, which clamps to `[100, 128]` and is fed by `os.totalmem()`
when no override is given. -/
def determineBatchSizeTotalMem (totalItems : Nat) (totalMem : Nat) : Nat :=
  let memoryBudget := totalMem * 3 / 10
  let maxByMemory := memoryBudget / (2 * 1024 * 1024)
  let clamped := Nat.max 100 (Nat.min 128 maxByMemory)
  Nat.min clamped totalItems

/-- The diff produced by `diffItems` (`IndexDiff` in `src/vectorstore.ts`). -/
structure IndexDiff where
  toEmbed : List IndexableItem
  toDelete : List String
  unchanged : Nat
  added : Nat
  updated : Nat
deriving DecidableEq

/-- Classification of one current item against the fetched store state. -/
inductive ItemClass where
  | added
  | updated
  | unchanged
deriving DecidableEq

/-- The per-item classification rule of the loop in `diffItems`: no stored
document means `added`; a stored document whose parsed content checksum equals
the item's checksum means `unchanged`; a differing checksum or unparsable
content means `updated`. -/
def classifyItem (st : Store) (item : IndexableItem) : ItemClass :=
  match fetchOne st item.id with
  | none => .added
  | some doc =>
    match doc.contentChecksum with
    | some c => if c = item.checksum then .unchanged else .updated
    | none => .updated

/-- The classification loop of `diffItems`: returns
`(toEmbed, unchanged, added, updated)` accumulated over the items in input
order. -/
def diffLoop (st : Store) : List IndexableItem → List IndexableItem × Nat × Nat × Nat
  | [] => ([], 0, 0, 0)
  | item :: rest =>
    let r := diffLoop st rest
    match fetchOne st item.id with
    | none => (item :: r.1, r.2.1, r.2.2.1 + 1, r.2.2.2)
    | some doc =>
      match doc.contentChecksum with
      | some c =>
        if c = item.checksum then (r.1, r.2.1 + 1, r.2.2.1, r.2.2.2)
        else (item :: r.1, r.2.1, r.2.2.1, r.2.2.2 + 1)
      | none => (item :: r.1, r.2.1, r.2.2.1, r.2.2.2 + 1)

/-- `DrewVectorStore.diffItems`.  `previousIds` is the ledger loaded by
`loadIndexedIds`; `fetched` is the outcome of the bulk `fetchSync` over the
current ids (`none` models the call throwing, in which case the run degrades
to a full re-index); the classification loop and the stale-id scan follow the
source. -/
def diffItems (previousIds : List String) (fetched : Option Store)
    (items : List IndexableItem) : IndexDiff :=
  match fetched with
  | none =>
    { toEmbed := items, toDelete := [], unchanged := 0
      added := items.length, updated := 0 }
  | some st =>
    let r := diffLoop st items
    let currentIds := items.map (fun i => i.id)
    let toDelete := previousIds.filter (fun p => !(currentIds.contains p))
    { toEmbed := r.1, toDelete := toDelete, unchanged := r.2.1
      added := r.2.2.1, updated := r.2.2.2 }

/-- The embedding provider boundary (`EmbeddingProvider`): `embed` is the
single-text call, `embedBatch` the batch call.  `none` models the call
throwing (transient resource exhaustion); the claims under study concern the
providers that expose `embedBatch`, which is the path `indexAll` takes. -/
structure Embedder where
  embed : String → Option (List Int)
  embedBatch : List String → Option (List (List Int))

/-- The sequential last resort inside `embedBatchWithRetry`: embed one text at
a time; a failing single-item call propagates as the fatal error. -/
def embedSeq (E : Embedder) : List String → Except Unit (List (List Int))
  | [] => .ok []
  | t :: ts =>
    match E.embed t with
    | none => .error ()
    | some v => (embedSeq E ts).map (fun vs => v :: vs)

/-- `DrewVectorStore.embedBatchWithRetry`: walk `texts` in `batchSize`-sized
chunks; a failing batch call is retried at `max 16 (batchSize / 2)` on that
chunk, and at batch size at most 16 it degrades to one-item-at-a-time calls.
Every call site passes a batch size of at least 16; the `batchSize = 0` guard
only makes the model total (the source loop would never advance there). -/
def embedBatchWithRetry (E : Embedder) (batchSize : Nat) (texts : List String) :
    Except Unit (List (List Int)) :=
  if h1 : texts = [] then .ok []
  else if h2 : batchSize = 0 then .ok []
  else
    match (match E.embedBatch (texts.take batchSize) with
      | some vecs => Except.ok vecs
      | none =>
        if h3 : batchSize ≤ 16 then embedSeq E (texts.take batchSize)
        else embedBatchWithRetry E (Nat.max 16 (batchSize / 2))
          (texts.take batchSize)) with
    | .error e => .error e
    | .ok vecs =>
      (embedBatchWithRetry E batchSize (texts.drop batchSize)).map
        (fun rest => vecs ++ rest)
termination_by texts.length + batchSize
decreasing_by
  · have ht := List.length_take_le' batchSize texts
    have hmax : Nat.max 16 (batchSize / 2) < batchSize := by
      unfold Nat.max
      omega
    omega
  · have hlen : 0 < texts.length := List.length_pos.mpr h1
    have := List.length_drop batchSize texts
    omega

/-- The inner `while (true)` retry loop of Phase 1 of `indexAll`, for one
chunk: try to batch-embed the prefix of the current batch size; on success,
embed the remainder (if the prefix was shortened) via `embedBatchWithRetry`
and concatenate; on failure at a batch size of at most 16, rethrow; otherwise
halve (with floor 16) and retry. -/
def embedChunkLoop (E : Embedder) (texts : List String) (currentBatchSize : Nat) :
    Except Unit (List (List Int)) :=
  match E.embedBatch (texts.take currentBatchSize) with
  | some vecs =>
    if currentBatchSize < texts.length then
      (embedBatchWithRetry E (Nat.max 16 (currentBatchSize / 2))
          (texts.drop currentBatchSize)).map
        (fun rest => vecs ++ rest)
    else .ok vecs
  | none =>
    if h : currentBatchSize ≤ 16 then .error ()
    else embedChunkLoop E texts (Nat.max 16 (currentBatchSize / 2))
termination_by currentBatchSize
decreasing_by
  unfold Nat.max
  omega

/-- The pairing loop after a chunk is embedded:
`embedded.push({item: batch[j], embedding: embeddings[j]})` for each `j` below
the batch length.  An out-of-range access (`embeddings[j]` undefined, possible
only when the provider violates its length contract) is modelled by the empty
vector. -/
def pairEmb : List IndexableItem → List (List Int) → List (IndexableItem × List Int)
  | [], _ => []
  | it :: rest, [] => (it, []) :: pairEmb rest []
  | it :: rest, v :: vs => (it, v) :: pairEmb rest vs

/-- Phase 1 of `indexAll`: consume `toEmbed` in `batchSize`-sized chunks, run
the per-chunk retry loop starting at the chunk's full length, and accumulate
`(item, embedding)` pairs in input order.  A fatal embedding error aborts the
run.  The `batchSize = 0` guard is unreachable from `indexAll` (there
`batchSize ≥ Nat.min 16 |toEmbed|` and `toEmbed ≠ []`). -/
def phase1Embed (E : Embedder) (batchSize : Nat) (toEmbed : List IndexableItem) :
    Except Unit (List (IndexableItem × List Int)) :=
  if h1 : toEmbed = [] then .ok []
  else if h2 : batchSize = 0 then .ok []
  else
    match embedChunkLoop E ((toEmbed.take batchSize).map (fun b => b.text))
        ((toEmbed.take batchSize).map (fun b => b.text)).length with
    | .error e => .error e
    | .ok vecs =>
      (phase1Embed E batchSize (toEmbed.drop batchSize)).map
        (fun rest => pairEmb (toEmbed.take batchSize) vecs ++ rest)
termination_by toEmbed.length
decreasing_by
  have hlen : 0 < toEmbed.length := List.length_pos.mpr h1
  have := List.length_drop batchSize toEmbed
  omega

/-- The document `indexAll` stages for upsert from an embedded item:
`{id, vectors: {embedding}, fields}`.  Since `indexAll` builds every item with
`fields.content = JSON.stringify(node)` and `checksum = node.checksum`, the
parsed content checksum of the stored document equals the item's checksum. -/
def toStoredDoc (item : IndexableItem) (v : List Int) : StoredDoc :=
  { embedding := v, fields := item.fields, contentChecksum := some item.checksum }

/-- Observable behaviour of the fallible collaborators during one run of
`indexAll`:
  * `fetchOk` — whether the bulk `fetchSync` in `diffItems` succeeds;
  * `writerApplied` — which of the staged documents the dedicated upsert
    worker actually wrote before exiting (the worker logs and skips failed
    flushes, so this may be any subset of what was sent to it);
  * `writerOk` — whether `upsertViaWorkers` reports success (worker spawned,
    exited with code 0);
  * `deleteOk` — which per-id `deleteSync` calls succeed (failures are caught
    and skipped);
  * `freeMem` — the `os.freemem()` sample feeding `determineBatchSize`. -/
structure RunEnv where
  fetchOk : Bool
  writerApplied : List (String × StoredDoc) → List (String × StoredDoc)
  writerOk : Bool
  deleteOk : String → Bool
  freeMem : Nat

/-- The delta counts of `IndexResult` returned by `indexAll` (the `nodes` and
`specs` totals are omitted; no claim mentions them). -/
structure IndexResult where
  added : Nat
  updated : Nat
  removed : Nat
  unchanged : Nat
deriving DecidableEq

/-- The observable outcome of a completed `indexAll` run: the storage state,
the ledger written by `saveIndexedIds`, the returned counts, and the ordered
trace of storage mutations applied during the run. -/
structure RunOutcome where
  store : Store
  ledger : List String
  result : IndexResult
  trace : List StoreEvent
deriving DecidableEq

/-- Apply a list of staged documents to the store by repeated `upsertSync`. -/
def applyUpserts (st : Store) (ups : List (String × StoredDoc)) : Store :=
  ups.foldl (fun s e => upsertOne s e.1 e.2) st

/-- Phase 3 of `indexAll`: best-effort `deleteSync` per stale id; a failing
delete is caught and skipped. -/
def applyDeletes (deleteOk : String → Bool) (st : Store) (ids : List String) : Store :=
  ids.foldl (fun s i => if deleteOk i then deleteOne s i else s) st

/-- The diff computed at the top of `indexAll`: `diffItems` fed with the
ledger from `loadIndexedIds` and the outcome of the bulk fetch against the
current store. -/
def runDiff (env : RunEnv) (st : Store) (ledger : List String)
    (items : List IndexableItem) : IndexDiff :=
  diffItems ledger (if env.fetchOk then some st else none) items

/-- The documents staged for the writer, in production order: the running
`sent`/`embedded` list the controller retains for fallback purposes. -/
def sentOf (embedded : List (IndexableItem × List Int)) : List (String × StoredDoc) :=
  embedded.map (fun p => (p.1.id, toStoredDoc p.1 p.2))

/-- The outcome of the main path of `indexAll` (Phases 2 and 3): the worker
applies the part of the stream it managed to write; if it did not succeed,
the controller synchronously upserts every staged document; then the stale
ids are deleted best-effort, the ledger is rewritten to the current id set,
and the counts are reported.  The trace records the storage mutations in
application order. -/
def mainOutcome (env : RunEnv) (st : Store) (items : List IndexableItem)
    (diff : IndexDiff) (embedded : List (IndexableItem × List Int)) : RunOutcome :=
  { store := applyDeletes env.deleteOk
      (applyUpserts (applyUpserts st (env.writerApplied (sentOf embedded)))
        (if env.writerOk then [] else sentOf embedded)) diff.toDelete
    ledger := items.map (fun i => i.id)
    result := ⟨diff.added, diff.updated, diff.toDelete.length, diff.unchanged⟩
    trace := (env.writerApplied (sentOf embedded)).map (fun e => .upsertEv e.1 e.2)
      ++ (if env.writerOk then [] else sentOf embedded).map
          (fun e => .upsertEv e.1 e.2)
      ++ diff.toDelete.map (fun i => .deleteEv i) }

/-- `DrewVectorStore.indexAll` as a state-passing function, following
`src/vectorstore.ts` lines 170-321.  `items` is the prepared item list (the
construction from nodes and specs at lines 183-217 is upstream of every
claim); `st` and `ledger` are the storage state and the ledger from
`loadIndexedIds`.  Steps: the `total === 0` early return (empty ledger,
all-zero counts, no storage mutation); the incremental diff; the
`workItems === 0` short-circuit (ledger rewritten to the current ids, zero
delta, store untouched); Phase 1 batch embedding (a fatal embedding error
propagates); Phase 2 worker upserts with the synchronous main-thread fallback
when the worker failed; Phase 3 stale deletes; `saveIndexedIds` of the
current id set; the returned counts. -/
def indexAll (E : Embedder) (env : RunEnv) (st : Store) (ledger : List String)
    (items : List IndexableItem) : Except Unit RunOutcome :=
  if items = [] then
    .ok { store := st, ledger := [], result := ⟨0, 0, 0, 0⟩, trace := [] }
  else
    if (runDiff env st ledger items).toEmbed.length
        + (runDiff env st ledger items).toDelete.length = 0 then
      .ok { store := st, ledger := items.map (fun i => i.id)
            result := ⟨0, 0, 0, (runDiff env st ledger items).unchanged⟩, trace := [] }
    else
      match phase1Embed E
          (determineBatchSize (runDiff env st ledger items).toEmbed.length env.freeMem)
          (runDiff env st ledger items).toEmbed with
      | .error e => .error e
      | .ok embedded =>
        .ok (mainOutcome env st items (runDiff env st ledger items) embedded)

/-- `DrewVectorStore.delete` (lines 548-557): fetch the encoded id; return
`false` if absent, otherwise delete it and return `true`.  `encode` stands
for `encodeId`, the sha-256 hex digest of the logical id; the claims depend
only on it being a function of the id. -/
def deleteById (encode : String → String) (st : Store) (id : String) : Bool × Store :=
  let encoded := encode id
  match fetchOne st encoded with
  | none => (false, st)
  | some _ => (true, deleteOne st encoded)

/-! ### Concrete instances used to exercise the theorems -/

/-- A well-behaved embedding provider: every call succeeds and vector `j`
is derived from text `j` (here: its length), so positional correspondence is
observable. -/
def lenEmbedder : Embedder :=
  { embed := fun t => some [Int.ofNat t.length]
    embedBatch := fun ts => some (ts.map (fun t => [Int.ofNat t.length])) }

/-- A provider whose batch endpoint always fails while single-item embedding
always succeeds. -/
def batchFailEmbedder : Embedder :=
  { embed := fun t => some [Int.ofNat t.length]
    embedBatch := fun _ => none }

/-- An environment where every collaborator behaves: fetch succeeds, the
writer writes everything it is sent and exits cleanly, deletes succeed. -/
def okEnv : RunEnv :=
  { fetchOk := true, writerApplied := fun l => l, writerOk := true
    deleteOk := fun _ => true, freeMem := 0 }

/-- An environment where the dedicated writer fails outright: it applies
nothing and reports failure (covers spawn failure, mid-stream death, and a
non-zero exit). -/
def writerDownEnv : RunEnv :=
  { fetchOk := true, writerApplied := fun _ => [], writerOk := false
    deleteOk := fun _ => true, freeMem := 0 }

/-- A provider that embeds every text as the constant vector `[7]`; used by
the run-level witnesses, where only the storage effects matter. -/
def constEmbedder : Embedder :=
  { embed := fun _ => some [7]
    embedBatch := fun ts => some (ts.map (fun _ => [7])) }

/-- A one-item corpus used by several witnesses. -/
def itemA : IndexableItem :=
  { id := "a", text := "fn alpha", fields := [("type", "node")], checksum := "ck1" }

/-- A second item, with a distinct id. -/
def itemB : IndexableItem :=
  { id := "b", text := "fn beta", fields := [("type", "node")], checksum := "ck2" }

end Drew

namespace Drew

/-! ### Store lemmas -/

theorem fetchOne_upsertOne_self (st : Store) (k : String) (d : StoredDoc) :
    fetchOne (upsertOne st k d) k = some d := by
  induction st with
  | nil => simp [upsertOne, fetchOne]
  | cons e rest ih =>
    by_cases h : e.1 = k
    · simp [upsertOne, h, fetchOne]
    · simp [upsertOne, h, fetchOne, ih]

theorem fetchOne_upsertOne_ne (st : Store) (k : String) (d : StoredDoc)
    (j : String) (h : j ≠ k) :
    fetchOne (upsertOne st k d) j = fetchOne st j := by
  have hk : ¬(k = j) := fun hc => h hc.symm
  induction st with
  | nil => simp [upsertOne, fetchOne, hk]
  | cons e rest ih =>
    by_cases he : e.1 = k
    · have hej : ¬(e.1 = j) := by
        rw [he]
        exact hk
      simp [upsertOne, he, fetchOne, hk, hej]
    · by_cases hj : e.1 = j
      · simp [upsertOne, he, fetchOne, hj, h]
      · simp [upsertOne, he, fetchOne, hj, h, ih]

theorem isSome_fetchOne_upsertOne (st : Store) (k : String) (d : StoredDoc)
    (j : String) (h : (fetchOne st j).isSome = true) :
    (fetchOne (upsertOne st k d) j).isSome = true := by
  by_cases hj : j = k
  · subst hj
    simp [fetchOne_upsertOne_self]
  · rw [fetchOne_upsertOne_ne st k d j hj]
    exact h

theorem fetchOne_deleteOne_self (st : Store) (k : String) :
    fetchOne (deleteOne st k) k = none := by
  induction st with
  | nil => simp [deleteOne, fetchOne]
  | cons e rest ih =>
    by_cases h : e.1 = k
    · simp [deleteOne, h, ih]
    · simp [deleteOne, h, fetchOne, ih]

theorem fetchOne_deleteOne_ne (st : Store) (k : String) (j : String) (h : j ≠ k) :
    fetchOne (deleteOne st k) j = fetchOne st j := by
  have hk : ¬(k = j) := fun hc => h hc.symm
  induction st with
  | nil => simp [deleteOne]
  | cons e rest ih =>
    by_cases he : e.1 = k
    · simp [deleteOne, he, fetchOne, hk, ih]
    · by_cases hj : e.1 = j
      · simp [deleteOne, he, fetchOne, hj, h]
      · simp [deleteOne, he, fetchOne, hj, h, ih]

theorem fetchOne_applyUpserts_notMem (ups : List (String × StoredDoc)) :
    ∀ (st : Store) (j : String), (j ∈ ups.map (fun e => e.1) → False) →
    fetchOne (applyUpserts st ups) j = fetchOne st j := by
  induction ups with
  | nil => intro st j _; rfl
  | cons e rest ih =>
    intro st j hj
    have h1 : j ≠ e.1 := by
      intro hc
      exact hj (by simp [hc])
    have h2 : j ∈ rest.map (fun x => x.1) → False := by
      intro hc
      exact hj (by simp [hc])
    show fetchOne (applyUpserts (upsertOne st e.1 e.2) rest) j = fetchOne st j
    rw [ih (upsertOne st e.1 e.2) j h2, fetchOne_upsertOne_ne st e.1 e.2 j h1]

theorem isSome_fetchOne_applyUpserts (ups : List (String × StoredDoc)) :
    ∀ (st : Store) (j : String), (fetchOne st j).isSome = true →
    (fetchOne (applyUpserts st ups) j).isSome = true := by
  induction ups with
  | nil => intro st j h; exact h
  | cons e rest ih =>
    intro st j h
    exact ih (upsertOne st e.1 e.2) j (isSome_fetchOne_upsertOne st e.1 e.2 j h)

theorem isSome_fetchOne_applyUpserts_mem (ups : List (String × StoredDoc)) :
    ∀ (st : Store) (j : String), j ∈ ups.map (fun e => e.1) →
    (fetchOne (applyUpserts st ups) j).isSome = true := by
  induction ups with
  | nil => intro st j h; simp at h
  | cons e rest ih =>
    intro st j h
    simp only [List.map_cons, List.mem_cons] at h
    rcases h with h1 | h1
    · subst h1
      exact isSome_fetchOne_applyUpserts rest (upsertOne st e.1 e.2) e.1
        (by simp [fetchOne_upsertOne_self])
    · exact ih (upsertOne st e.1 e.2) j h1

theorem fetchOne_applyUpserts_mem_nodup (ups : List (String × StoredDoc)) :
    ∀ (st : Store) (j : String) (d : StoredDoc),
    (ups.map (fun e => e.1)).Nodup → (j, d) ∈ ups →
    fetchOne (applyUpserts st ups) j = some d := by
  induction ups with
  | nil => intro st j d _ h; simp at h
  | cons e rest ih =>
    intro st j d hnd hmem
    have hnd2 : (rest.map (fun x => x.1)).Nodup := (List.nodup_cons.mp hnd).2
    rcases List.mem_cons.mp hmem with h1 | h1
    · subst h1
      have hj : j ∈ rest.map (fun x => x.1) → False := by
        intro hc
        exact (List.nodup_cons.mp hnd).1 hc
      show fetchOne (applyUpserts (upsertOne st j d) rest) j = some d
      rw [fetchOne_applyUpserts_notMem rest (upsertOne st j d) j hj]
      exact fetchOne_upsertOne_self st j d
    · exact ih (upsertOne st e.1 e.2) j d hnd2 h1

theorem fetchOne_applyDeletes_notMem (ids : List String) :
    ∀ (dOk : String → Bool) (st : Store) (j : String), (j ∈ ids → False) →
    fetchOne (applyDeletes dOk st ids) j = fetchOne st j := by
  induction ids with
  | nil => intro dOk st j _; rfl
  | cons i rest ih =>
    intro dOk st j hj
    have h1 : j ≠ i := fun hc => hj (by simp [hc])
    have h2 : j ∈ rest → False := fun hc => hj (by simp [hc])
    show fetchOne (applyDeletes dOk (if dOk i then deleteOne st i else st) rest) j
        = fetchOne st j
    rw [ih dOk (if dOk i then deleteOne st i else st) j h2]
    by_cases hd : dOk i
    · simp [hd, fetchOne_deleteOne_ne st i j h1]
    · simp [hd]

theorem fetchOne_applyDeletes_none (ids : List String) :
    ∀ (dOk : String → Bool) (st : Store) (j : String), fetchOne st j = none →
    fetchOne (applyDeletes dOk st ids) j = none := by
  induction ids with
  | nil => intro dOk st j h; exact h
  | cons i rest ih =>
    intro dOk st j h
    apply ih
    by_cases hd : dOk i
    · simp only [hd, if_true]
      by_cases hj : j = i
      · subst hj
        exact fetchOne_deleteOne_self st j
      · rw [fetchOne_deleteOne_ne st i j hj]
        exact h
    · simpa [hd] using h

theorem fetchOne_applyDeletes_mem (ids : List String) :
    ∀ (dOk : String → Bool) (st : Store) (j : String), j ∈ ids → dOk j = true →
    fetchOne (applyDeletes dOk st ids) j = none := by
  induction ids with
  | nil => intro dOk st j h _; simp at h
  | cons i rest ih =>
    intro dOk st j hm hok
    rcases List.mem_cons.mp hm with h1 | h1
    · subst h1
      show fetchOne (applyDeletes dOk (if dOk j then deleteOne st j else st) rest) j
          = none
      apply fetchOne_applyDeletes_none
      simp [hok, fetchOne_deleteOne_self]
    · exact ih dOk (if dOk i then deleteOne st i else st) j h1 hok

/-! ### Theorems: diff engine and batch sizer -/

theorem diffLoop_spec (st : Store) (items : List IndexableItem) :
    (diffLoop st items).1
        = items.filter (fun it => !(classifyItem st it == .unchanged)) ∧
    (diffLoop st items).2.1
        = items.countP (fun it => classifyItem st it == .unchanged) ∧
    (diffLoop st items).2.2.1
        = items.countP (fun it => classifyItem st it == .added) ∧
    (diffLoop st items).2.2.2
        = items.countP (fun it => classifyItem st it == .updated) := by
  induction items with
  | nil => simp [diffLoop]
  | cons item rest ih =>
    obtain ⟨h1, h2, h3, h4⟩ := ih
    simp only [diffLoop]
    cases hf : fetchOne st item.id with
    | none =>
      have hcl : classifyItem st item = .added := by simp [classifyItem, hf]
      simp [List.filter_cons, List.countP_cons, hcl, h1, h2, h3, h4]
    | some doc =>
      cases hc : doc.contentChecksum with
      | none =>
        have hcl : classifyItem st item = .updated := by simp [classifyItem, hf, hc]
        simp [List.filter_cons, List.countP_cons, hc, hcl, h1, h2, h3, h4]
      | some c =>
        by_cases hcs : c = item.checksum
        · have hcl : classifyItem st item = .unchanged := by
            simp [classifyItem, hf, hc, hcs]
          simp [List.filter_cons, List.countP_cons, hc, hcl, hcs, h1, h2, h3, h4]
        · have hcl : classifyItem st item = .updated := by
            simp [classifyItem, hf, hc, hcs]
          simp [List.filter_cons, List.countP_cons, hc, hcl, hcs, h1, h2, h3, h4]

theorem countP_classify_sum (st : Store) (items : List IndexableItem) :
    items.countP (fun it => classifyItem st it == ItemClass.unchanged)
      + items.countP (fun it => classifyItem st it == ItemClass.added)
      + items.countP (fun it => classifyItem st it == ItemClass.updated)
      = items.length := by
  induction items with
  | nil => simp
  | cons item rest ih =>
    simp only [List.countP_cons, List.length_cons]
    cases hcl : classifyItem st item <;> simp [hcl] <;> omega

/-- C2: for every current item list and every prior store state (here: a
successful bulk fetch of the store `st` and a ledger `previousIds`), the diff
classifies each item into exactly one of unchanged/added/updated, so the
three counters sum to the item count; `toEmbed` is exactly the added and
updated items in input order; and `toDelete` is exactly the ledger ids absent
from the current id set. -/
theorem diffItems_partition (previousIds : List String) (st : Store)
    (items : List IndexableItem) :
    (diffItems previousIds (some st) items).unchanged
        + (diffItems previousIds (some st) items).added
        + (diffItems previousIds (some st) items).updated
      = items.length ∧
    (diffItems previousIds (some st) items).unchanged
        = items.countP (fun it => classifyItem st it == .unchanged) ∧
    (diffItems previousIds (some st) items).added
        = items.countP (fun it => classifyItem st it == .added) ∧
    (diffItems previousIds (some st) items).updated
        = items.countP (fun it => classifyItem st it == .updated) ∧
    (diffItems previousIds (some st) items).toEmbed
        = items.filter (fun it => !(classifyItem st it == .unchanged)) ∧
    (diffItems previousIds (some st) items).toDelete
        = previousIds.filter (fun p => !((items.map (fun i => i.id)).contains p)) := by
  obtain ⟨h1, h2, h3, h4⟩ := diffLoop_spec st items
  refine ⟨?_, h2, h3, h4, h1, rfl⟩
  show (diffLoop st items).2.1 + (diffLoop st items).2.2.1
      + (diffLoop st items).2.2.2 = items.length
  rw [h2, h3, h4]
  exact countP_classify_sum st items

/-- C6: if the bulk fetch of stored records fails during diffing (modelled by
`fetched = none`), `diffItems` degrades instead of failing: every current
item is classified as added, `toEmbed` is the full item list, the counters
are `added = |items|`, `updated = unchanged = 0`, and `toDelete` is empty. -/
theorem diffItems_fetchFailure (previousIds : List String)
    (items : List IndexableItem) :
    diffItems previousIds none items
      = { toEmbed := items, toDelete := [], unchanged := 0
          added := items.length, updated := 0 } := rfl

/-- C7: for all item counts and memory amounts, both `determineBatchSize`
variants are bounded: the result is at most 128, at most `totalItems`
(hence also nonnegative, trivially in `Nat`), and at least the configured
lower bound (16, respectively 100) unless `totalItems` is smaller.  Both
functions are pure Lean functions of their two arguments, so determinism
when the memory argument is supplied holds by construction. -/
theorem determineBatchSize_bounds (totalItems freeMem totalMem : Nat) :
    determineBatchSize totalItems freeMem ≤ 128 ∧
    determineBatchSize totalItems freeMem ≤ totalItems ∧
    Nat.min 16 totalItems ≤ determineBatchSize totalItems freeMem ∧
    determineBatchSizeTotalMem totalItems totalMem ≤ 128 ∧
    determineBatchSizeTotalMem totalItems totalMem ≤ totalItems ∧
    Nat.min 100 totalItems ≤ determineBatchSizeTotalMem totalItems totalMem := by
  simp only [determineBatchSize, determineBatchSizeTotalMem, Nat.min_def, Nat.max_def]
  split_ifs <;> omega

/-! ### Embedding pipeline lemmas -/

theorem exceptMap_isOk {α β : Type} (f : α → β) (e : Except Unit α) :
    (e.map f).isOk = e.isOk := by
  cases e <;> rfl

theorem exceptMap_eq_ok {α β : Type} (f : α → β) (e : Except Unit α) (b : β) :
    e.map f = .ok b ↔ ∃ a, e = .ok a ∧ b = f a := by
  cases e with
  | error x => simp [Except.map]
  | ok a => simp [Except.map, eq_comm]

theorem isOk_of_eq_ok {α : Type} (e : Except Unit α) (a : α) (h : e = .ok a) :
    e.isOk = true := by
  subst h
  rfl

theorem exists_ok_of_isOk {α : Type} (e : Except Unit α) (h : e.isOk = true) :
    ∃ a, e = .ok a := by
  cases e with
  | error x => simp [Except.isOk, Except.toBool] at h
  | ok a => exact ⟨a, rfl⟩

theorem pairEmb_fst : ∀ (batch : List IndexableItem) (vecs : List (List Int)),
    (pairEmb batch vecs).map (fun p => p.1) = batch := by
  intro batch
  induction batch with
  | nil => intro vecs; cases vecs <;> rfl
  | cons it rest ih =>
    intro vecs
    cases vecs with
    | nil => simp [pairEmb, ih]
    | cons v vs => simp [pairEmb, ih]

theorem pairEmb_map (g : IndexableItem → List Int) :
    ∀ batch : List IndexableItem,
    pairEmb batch (batch.map g) = batch.map (fun it => (it, g it)) := by
  intro batch
  induction batch with
  | nil => rfl
  | cons it rest ih => simp [pairEmb, ih]

theorem embedSeq_isOk (E : Embedder) (hS : ∀ t, (E.embed t).isSome = true) :
    ∀ texts : List String, (embedSeq E texts).isOk = true := by
  intro texts
  induction texts with
  | nil => rfl
  | cons t ts ih =>
    have := hS t
    cases hE : E.embed t with
    | none => rw [hE] at this; simp at this
    | some v => simp [embedSeq, hE, exceptMap_isOk, ih]

theorem embedSeq_ok (E : Embedder) (f : String → List Int)
    (hS : ∀ t v, E.embed t = some v → v = f t) :
    ∀ (texts : List String) (vs : List (List Int)),
    embedSeq E texts = .ok vs → vs = texts.map f := by
  intro texts
  induction texts with
  | nil =>
    intro vs h
    simp [embedSeq] at h
    simp [h.symm]
  | cons t ts ih =>
    intro vs h
    cases hE : E.embed t with
    | none => simp [embedSeq, hE] at h
    | some v =>
      simp only [embedSeq, hE] at h
      obtain ⟨ws, hws, hvs⟩ := (exceptMap_eq_ok _ _ _).mp h
      rw [hvs, ih ws hws, hS t v hE]
      rfl

theorem chunk_measure_le (bs : Nat) (texts : List String) (n : Nat)
    (hn : texts.length + bs ≤ n + 1) (h16b : ¬bs ≤ 16) :
    (texts.take bs).length + Nat.max 16 (bs / 2) ≤ n := by
  have htake := List.length_take_le' bs texts
  have hmax2 : Nat.max 16 (bs / 2) < bs := by
    unfold Nat.max
    omega
  revert hmax2
  generalize Nat.max 16 (bs / 2) = m
  intro hmax2
  omega

theorem embedBatchWithRetry_isOk_aux (E : Embedder)
    (h16 : ∀ ts : List String, ts.length ≤ 16 → (E.embedBatch ts).isSome = true) :
    ∀ (n bs : Nat) (texts : List String), texts.length + bs ≤ n → 16 ≤ bs →
    (embedBatchWithRetry E bs texts).isOk = true := by
  intro n
  induction n with
  | zero =>
    intro bs texts hn hbs
    omega
  | succ n ih =>
    intro bs texts hn hbs
    by_cases hnil : texts = []
    · subst hnil
      rw [embedBatchWithRetry]
      simp [Except.isOk, Except.toBool]
    · have hbz : ¬(bs = 0) := by omega
      rw [embedBatchWithRetry, dif_neg hnil, dif_neg hbz]
      have hlen : 0 < texts.length := List.length_pos.mpr hnil
      have hdrop := List.length_drop bs texts
      have htake := List.length_take_le' bs texts
      have hrest : (embedBatchWithRetry E bs (texts.drop bs)).isOk = true :=
        ih bs (texts.drop bs) (by omega) hbs
      cases hE : E.embedBatch (texts.take bs) with
      | some vecs =>
        simp only [hE]
        simpa [exceptMap_isOk] using hrest
      | none =>
        simp only [hE]
        by_cases h16b : bs ≤ 16
        · have htk : (texts.take bs).length ≤ 16 :=
            le_trans (List.length_take_le bs texts) h16b
          have hsome := h16 (texts.take bs) htk
          rw [hE] at hsome
          simp at hsome
        · rw [dif_neg h16b]
          have hmax1 : 16 ≤ Nat.max 16 (bs / 2) := by
            unfold Nat.max
            omega
          have hmax2 : Nat.max 16 (bs / 2) < bs := by
            unfold Nat.max
            omega
          have hchunk :
              (embedBatchWithRetry E (Nat.max 16 (bs / 2)) (texts.take bs)).isOk
                = true :=
            ih (Nat.max 16 (bs / 2)) (texts.take bs)
              (chunk_measure_le bs texts n hn h16b) hmax1
          obtain ⟨vecs, hv⟩ := exists_ok_of_isOk _ hchunk
          rw [hv]
          simpa [exceptMap_isOk] using hrest

theorem embedBatchWithRetry_isOk_embed_aux (E : Embedder)
    (hS : ∀ t, (E.embed t).isSome = true) :
    ∀ (n bs : Nat) (texts : List String), texts.length + bs ≤ n → 1 ≤ bs →
    (embedBatchWithRetry E bs texts).isOk = true := by
  intro n
  induction n with
  | zero =>
    intro bs texts hn hbs
    omega
  | succ n ih =>
    intro bs texts hn hbs
    by_cases hnil : texts = []
    · subst hnil
      rw [embedBatchWithRetry]
      simp [Except.isOk, Except.toBool]
    · have hbz : ¬(bs = 0) := by omega
      rw [embedBatchWithRetry, dif_neg hnil, dif_neg hbz]
      have hlen : 0 < texts.length := List.length_pos.mpr hnil
      have hdrop := List.length_drop bs texts
      have htake := List.length_take_le' bs texts
      have hrest : (embedBatchWithRetry E bs (texts.drop bs)).isOk = true :=
        ih bs (texts.drop bs) (by omega) hbs
      cases hE : E.embedBatch (texts.take bs) with
      | some vecs =>
        simp only [hE]
        simpa [exceptMap_isOk] using hrest
      | none =>
        simp only [hE]
        by_cases h16b : bs ≤ 16
        · rw [dif_pos h16b]
          obtain ⟨vecs, hv⟩ :=
            exists_ok_of_isOk _ (embedSeq_isOk E hS (texts.take bs))
          rw [hv]
          simpa [exceptMap_isOk] using hrest
        · rw [dif_neg h16b]
          have hmax1 : 1 ≤ Nat.max 16 (bs / 2) := by
            unfold Nat.max
            omega
          have hmax2 : Nat.max 16 (bs / 2) < bs := by
            unfold Nat.max
            omega
          have hchunk :
              (embedBatchWithRetry E (Nat.max 16 (bs / 2)) (texts.take bs)).isOk
                = true :=
            ih (Nat.max 16 (bs / 2)) (texts.take bs)
              (chunk_measure_le bs texts n hn h16b) hmax1
          obtain ⟨vecs, hv⟩ := exists_ok_of_isOk _ hchunk
          rw [hv]
          simpa [exceptMap_isOk] using hrest

theorem embedBatchWithRetry_ok_aux (E : Embedder) (f : String → List Int)
    (hB : ∀ ts vs, E.embedBatch ts = some vs → vs = ts.map f)
    (hS : ∀ t v, E.embed t = some v → v = f t) :
    ∀ (n bs : Nat) (texts : List String) (vs : List (List Int)),
    texts.length + bs ≤ n → 1 ≤ bs →
    embedBatchWithRetry E bs texts = .ok vs → vs = texts.map f := by
  intro n
  induction n with
  | zero =>
    intro bs texts vs hn hbs
    omega
  | succ n ih =>
    intro bs texts vs hn hbs h
    by_cases hnil : texts = []
    · subst hnil
      rw [embedBatchWithRetry] at h
      simp at h
      simp [h.symm]
    · have hbz : ¬(bs = 0) := by omega
      rw [embedBatchWithRetry, dif_neg hnil, dif_neg hbz] at h
      have hlen : 0 < texts.length := List.length_pos.mpr hnil
      have hdrop := List.length_drop bs texts
      have htake := List.length_take_le' bs texts
      have hjoin : ∀ vecs rest : List (List Int),
          vecs = (texts.take bs).map f → rest = (texts.drop bs).map f →
          vecs ++ rest = texts.map f := by
        intro vecs rest hv hr
        rw [hv, hr, ← List.map_append, List.take_append_drop]
      cases hE : E.embedBatch (texts.take bs) with
      | some vecs =>
        simp only [hE] at h
        obtain ⟨rest, hrest, hvs⟩ := (exceptMap_eq_ok _ _ _).mp h
        rw [hvs]
        exact hjoin vecs rest (hB (texts.take bs) vecs hE)
          (ih bs (texts.drop bs) rest (by omega) hbs hrest)
      | none =>
        simp only [hE] at h
        by_cases h16b : bs ≤ 16
        · rw [dif_pos h16b] at h
          cases hseq : embedSeq E (texts.take bs) with
          | error x => rw [hseq] at h; simp at h
          | ok vecs =>
            rw [hseq] at h
            obtain ⟨rest, hrest, hvs⟩ := (exceptMap_eq_ok _ _ _).mp h
            rw [hvs]
            exact hjoin vecs rest (embedSeq_ok E f hS (texts.take bs) vecs hseq)
              (ih bs (texts.drop bs) rest (by omega) hbs hrest)
        · rw [dif_neg h16b] at h
          have hmax1 : 1 ≤ Nat.max 16 (bs / 2) := by
            unfold Nat.max
            omega
          have hmax2 : Nat.max 16 (bs / 2) < bs := by
            unfold Nat.max
            omega
          cases hch : embedBatchWithRetry E (Nat.max 16 (bs / 2)) (texts.take bs) with
          | error x => rw [hch] at h; simp at h
          | ok vecs =>
            rw [hch] at h
            obtain ⟨rest, hrest, hvs⟩ := (exceptMap_eq_ok _ _ _).mp h
            rw [hvs]
            exact hjoin vecs rest
              (ih (Nat.max 16 (bs / 2)) (texts.take bs) vecs
                (chunk_measure_le bs texts n hn h16b) hmax1 hch)
              (ih bs (texts.drop bs) rest (by omega) hbs hrest)

theorem embedChunkLoop_isOk (E : Embedder)
    (h16 : ∀ ts : List String, ts.length ≤ 16 → (E.embedBatch ts).isSome = true) :
    ∀ (cbs : Nat) (texts : List String),
    (embedChunkLoop E texts cbs).isOk = true := by
  intro cbs
  induction cbs using Nat.strong_induction_on with
  | _ cbs ih =>
    intro texts
    rw [embedChunkLoop]
    cases hE : E.embedBatch (texts.take cbs) with
    | some vecs =>
      by_cases hlt : cbs < texts.length
      · simp only [hlt, if_true, exceptMap_isOk]
        have hmax1 : 16 ≤ Nat.max 16 (cbs / 2) := by
          unfold Nat.max
          omega
        exact embedBatchWithRetry_isOk_aux E h16
          ((texts.drop cbs).length + Nat.max 16 (cbs / 2)) (Nat.max 16 (cbs / 2))
          (texts.drop cbs) (le_refl _) hmax1
      · simp [hlt, Except.isOk, Except.toBool]
    | none =>
      by_cases h16b : cbs ≤ 16
      · have htk : (texts.take cbs).length ≤ 16 :=
          le_trans (List.length_take_le cbs texts) h16b
        have hsome := h16 (texts.take cbs) htk
        rw [hE] at hsome
        simp at hsome
      · rw [dif_neg h16b]
        have hmax2 : Nat.max 16 (cbs / 2) < cbs := by
          unfold Nat.max
          omega
        exact ih (Nat.max 16 (cbs / 2)) hmax2 texts

theorem embedChunkLoop_ok (E : Embedder) (f : String → List Int)
    (hB : ∀ ts vs, E.embedBatch ts = some vs → vs = ts.map f)
    (hS : ∀ t v, E.embed t = some v → v = f t) :
    ∀ (cbs : Nat) (texts : List String) (vs : List (List Int)),
    embedChunkLoop E texts cbs = .ok vs → vs = texts.map f := by
  intro cbs
  induction cbs using Nat.strong_induction_on with
  | _ cbs ih =>
    intro texts vs h
    rw [embedChunkLoop] at h
    cases hE : E.embedBatch (texts.take cbs) with
    | some vecs =>
      rw [hE] at h
      by_cases hlt : cbs < texts.length
      · simp only [hlt, if_true] at h
        obtain ⟨rest, hrest, hvs⟩ := (exceptMap_eq_ok _ _ _).mp h
        have hmax1 : 1 ≤ Nat.max 16 (cbs / 2) := by
          unfold Nat.max
          omega
        have hr : rest = (texts.drop cbs).map f :=
          embedBatchWithRetry_ok_aux E f hB hS
            ((texts.drop cbs).length + Nat.max 16 (cbs / 2)) (Nat.max 16 (cbs / 2))
            (texts.drop cbs) rest (le_refl _) hmax1 hrest
        rw [hvs, hB (texts.take cbs) vecs hE, hr, ← List.map_append,
          List.take_append_drop]
      · simp only [hlt, if_false] at h
        have hvs : vecs = vs := by
          injection h
        rw [← hvs, hB (texts.take cbs) vecs hE,
          List.take_of_length_le (by omega)]
    | none =>
      rw [hE] at h
      by_cases h16b : cbs ≤ 16
      · rw [dif_pos h16b] at h
        simp at h
      · rw [dif_neg h16b] at h
        have hmax2 : Nat.max 16 (cbs / 2) < cbs := by
          unfold Nat.max
          omega
        exact ih (Nat.max 16 (cbs / 2)) hmax2 texts vs h

theorem phase1Embed_isOk (E : Embedder)
    (h16 : ∀ ts : List String, ts.length ≤ 16 → (E.embedBatch ts).isSome = true) :
    ∀ (n : Nat) (bs : Nat) (toEmbed : List IndexableItem), toEmbed.length ≤ n →
    (phase1Embed E bs toEmbed).isOk = true := by
  intro n
  induction n with
  | zero =>
    intro bs toEmbed hn
    have hnil : toEmbed = [] := List.length_eq_zero.mp (by omega)
    subst hnil
    rw [phase1Embed]
    simp [Except.isOk, Except.toBool]
  | succ n ih =>
    intro bs toEmbed hn
    by_cases hnil : toEmbed = []
    · subst hnil
      rw [phase1Embed]
      simp [Except.isOk, Except.toBool]
    · by_cases hbz : bs = 0
      · rw [phase1Embed, dif_neg hnil, dif_pos hbz]
        rfl
      · rw [phase1Embed, dif_neg hnil, dif_neg hbz]
        obtain ⟨vecs, hv⟩ := exists_ok_of_isOk _
          (embedChunkLoop_isOk E h16
            ((toEmbed.take bs).map (fun b => b.text)).length
            ((toEmbed.take bs).map (fun b => b.text)))
        rw [hv]
        have hlen : 0 < toEmbed.length := List.length_pos.mpr hnil
        have hdrop := List.length_drop bs toEmbed
        simpa [exceptMap_isOk] using ih bs (toEmbed.drop bs) (by omega)

theorem phase1Embed_ok (E : Embedder) (f : String → List Int)
    (hB : ∀ ts vs, E.embedBatch ts = some vs → vs = ts.map f)
    (hS : ∀ t v, E.embed t = some v → v = f t) :
    ∀ (n : Nat) (bs : Nat) (toEmbed : List IndexableItem)
      (ps : List (IndexableItem × List Int)), toEmbed.length ≤ n → 1 ≤ bs →
    phase1Embed E bs toEmbed = .ok ps →
    ps = toEmbed.map (fun it => (it, f it.text)) := by
  intro n
  induction n with
  | zero =>
    intro bs toEmbed ps hn hbs h
    have hnil : toEmbed = [] := List.length_eq_zero.mp (by omega)
    subst hnil
    rw [phase1Embed] at h
    simp at h
    simp [h.symm]
  | succ n ih =>
    intro bs toEmbed ps hn hbs h
    by_cases hnil : toEmbed = []
    · subst hnil
      rw [phase1Embed] at h
      simp at h
      simp [h.symm]
    · have hbz : ¬(bs = 0) := by omega
      rw [phase1Embed, dif_neg hnil, dif_neg hbz] at h
      cases hcl : embedChunkLoop E ((toEmbed.take bs).map (fun b => b.text))
          ((toEmbed.take bs).map (fun b => b.text)).length with
      | error x => rw [hcl] at h; simp at h
      | ok vecs =>
        rw [hcl] at h
        obtain ⟨rest, hrest, hps⟩ := (exceptMap_eq_ok _ _ _).mp h
        have hlen : 0 < toEmbed.length := List.length_pos.mpr hnil
        have hdrop := List.length_drop bs toEmbed
        have hvecs : vecs = (toEmbed.take bs).map (fun it => f it.text) := by
          have := embedChunkLoop_ok E f hB hS
            ((toEmbed.take bs).map (fun b => b.text)).length
            ((toEmbed.take bs).map (fun b => b.text)) vecs hcl
          rw [this, List.map_map]
          rfl
        have hpair : pairEmb (toEmbed.take bs) vecs
            = (toEmbed.take bs).map (fun it => (it, f it.text)) := by
          rw [hvecs]
          exact pairEmb_map (fun it => f it.text) (toEmbed.take bs)
        rw [hps, hpair, ih bs (toEmbed.drop bs) rest (by omega) hbs hrest,
          ← List.map_append, List.take_append_drop]

theorem phase1Embed_fst (E : Embedder) :
    ∀ (n : Nat) (bs : Nat) (toEmbed : List IndexableItem)
      (ps : List (IndexableItem × List Int)), toEmbed.length ≤ n → 1 ≤ bs →
    phase1Embed E bs toEmbed = .ok ps →
    ps.map (fun p => p.1) = toEmbed := by
  intro n
  induction n with
  | zero =>
    intro bs toEmbed ps hn hbs h
    have hnil : toEmbed = [] := List.length_eq_zero.mp (by omega)
    subst hnil
    rw [phase1Embed] at h
    simp at h
    simp [h.symm]
  | succ n ih =>
    intro bs toEmbed ps hn hbs h
    by_cases hnil : toEmbed = []
    · subst hnil
      rw [phase1Embed] at h
      simp at h
      simp [h.symm]
    · have hbz : ¬(bs = 0) := by omega
      rw [phase1Embed, dif_neg hnil, dif_neg hbz] at h
      cases hcl : embedChunkLoop E ((toEmbed.take bs).map (fun b => b.text))
          ((toEmbed.take bs).map (fun b => b.text)).length with
      | error x => rw [hcl] at h; simp at h
      | ok vecs =>
        rw [hcl] at h
        obtain ⟨rest, hrest, hps⟩ := (exceptMap_eq_ok _ _ _).mp h
        have hlen : 0 < toEmbed.length := List.length_pos.mpr hnil
        have hdrop := List.length_drop bs toEmbed
        rw [hps, List.map_append, pairEmb_fst,
          ih bs (toEmbed.drop bs) rest (by omega) hbs hrest,
          List.take_append_drop]

/-! ### Run controller lemmas -/

theorem classify_unchanged_iff (st : Store) (item : IndexableItem) :
    classifyItem st item = .unchanged ↔
    ∃ doc, fetchOne st item.id = some doc
      ∧ doc.contentChecksum = some item.checksum := by
  constructor
  · intro h
    cases hf : fetchOne st item.id with
    | none => simp [classifyItem, hf] at h
    | some doc =>
      cases hc : doc.contentChecksum with
      | none => simp [classifyItem, hf, hc] at h
      | some c =>
        by_cases hcs : c = item.checksum
        · subst hcs
          exact ⟨doc, rfl, hc⟩
        · simp [classifyItem, hf, hc, hcs] at h
  · rintro ⟨doc, hf, hc⟩
    simp [classifyItem, hf, hc]

theorem runDiff_toEmbed_eq (env : RunEnv) (st : Store) (ledger : List String)
    (items : List IndexableItem) (hf : env.fetchOk = true) :
    (runDiff env st ledger items).toEmbed
      = items.filter (fun it => !(classifyItem st it == .unchanged)) := by
  rw [runDiff, hf]
  exact (diffLoop_spec st items).1

theorem runDiff_unchanged_eq (env : RunEnv) (st : Store) (ledger : List String)
    (items : List IndexableItem) (hf : env.fetchOk = true) :
    (runDiff env st ledger items).unchanged
      = items.countP (fun it => classifyItem st it == .unchanged) := by
  rw [runDiff, hf]
  exact (diffLoop_spec st items).2.1

theorem runDiff_toDelete_eq (env : RunEnv) (st : Store) (ledger : List String)
    (items : List IndexableItem) (hf : env.fetchOk = true) :
    (runDiff env st ledger items).toDelete
      = ledger.filter (fun p => !((items.map (fun i => i.id)).contains p)) := by
  rw [runDiff, hf]
  rfl

theorem runDiff_fetchFail (env : RunEnv) (st : Store) (ledger : List String)
    (items : List IndexableItem) (hf : env.fetchOk = false) :
    (runDiff env st ledger items).toEmbed = items
      ∧ (runDiff env st ledger items).toDelete = [] := by
  rw [runDiff, hf]
  exact ⟨rfl, rfl⟩

theorem runDiff_toDelete_disjoint (env : RunEnv) (st : Store) (ledger : List String)
    (items : List IndexableItem) :
    ∀ p ∈ (runDiff env st ledger items).toDelete,
    (p ∈ items.map (fun i => i.id)) → False := by
  intro p hp hmem
  cases hf : env.fetchOk with
  | false =>
    rw [runDiff, hf] at hp
    simp [diffItems] at hp
  | true =>
    rw [runDiff_toDelete_eq env st ledger items hf] at hp
    have hp2 := List.of_mem_filter hp
    simp [hmem] at hp2

theorem runDiff_classify_of_not_toEmbed (env : RunEnv) (st : Store)
    (ledger : List String) (items : List IndexableItem) (item : IndexableItem)
    (hmem : item ∈ items) (hne : (item ∈ (runDiff env st ledger items).toEmbed → False))
    (hf : env.fetchOk = true) :
    classifyItem st item = .unchanged := by
  by_cases hcl : classifyItem st item = .unchanged
  · exact hcl
  · exfalso
    apply hne
    rw [runDiff_toEmbed_eq env st ledger items hf]
    refine List.mem_filter.mpr ⟨hmem, ?_⟩
    simp [hcl]

theorem indexAll_ok_inv (E : Embedder) (env : RunEnv) (st : Store)
    (ledger : List String) (items : List IndexableItem) (out : RunOutcome)
    (h : indexAll E env st ledger items = .ok out) :
    (items = [] ∧ out = ⟨st, [], ⟨0, 0, 0, 0⟩, []⟩) ∨
    (items ≠ [] ∧ (runDiff env st ledger items).toEmbed = []
      ∧ (runDiff env st ledger items).toDelete = []
      ∧ out = ⟨st, items.map (fun i => i.id),
          ⟨0, 0, 0, (runDiff env st ledger items).unchanged⟩, []⟩) ∨
    (items ≠ [] ∧ ∃ embedded,
      phase1Embed E
          (determineBatchSize (runDiff env st ledger items).toEmbed.length env.freeMem)
          (runDiff env st ledger items).toEmbed = .ok embedded ∧
      out = mainOutcome env st items (runDiff env st ledger items) embedded) := by
  by_cases hnil : items = []
  · left
    refine ⟨hnil, ?_⟩
    rw [indexAll, if_pos hnil] at h
    injection h with h
    exact h.symm
  · by_cases hwork : (runDiff env st ledger items).toEmbed.length
        + (runDiff env st ledger items).toDelete.length = 0
    · right
      left
      have hte : (runDiff env st ledger items).toEmbed = [] :=
        List.length_eq_zero.mp (by omega)
      have htd : (runDiff env st ledger items).toDelete = [] :=
        List.length_eq_zero.mp (by omega)
      refine ⟨hnil, hte, htd, ?_⟩
      rw [indexAll, if_neg hnil, if_pos hwork] at h
      injection h with h
      exact h.symm
    · right
      right
      rw [indexAll, if_neg hnil, if_neg hwork] at h
      cases hph : phase1Embed E
          (determineBatchSize (runDiff env st ledger items).toEmbed.length env.freeMem)
          (runDiff env st ledger items).toEmbed with
      | error x =>
        rw [hph] at h
        simp at h
      | ok embedded =>
        rw [hph] at h
        have h2 : mainOutcome env st items (runDiff env st ledger items) embedded
            = out :=
          Except.ok.inj h
        exact ⟨hnil, embedded, rfl, h2.symm⟩

theorem applyUpserts_nil (st : Store) : applyUpserts st [] = st := rfl

theorem determineBatchSize_pos (totalItems freeMem : Nat) (h : 1 ≤ totalItems) :
    1 ≤ determineBatchSize totalItems freeMem := by
  simp only [determineBatchSize, Nat.min_def, Nat.max_def]
  split_ifs <;> omega

theorem sentOf_keys (embedded : List (IndexableItem × List Int)) :
    (sentOf embedded).map (fun e => e.1)
      = (embedded.map (fun p => p.1)).map (fun i => i.id) := by
  simp [sentOf, List.map_map]

theorem sentOf_mem_of_fst (embedded : List (IndexableItem × List Int))
    (item : IndexableItem) (hm : item ∈ embedded.map (fun p => p.1)) :
    ∃ d, (item.id, d) ∈ sentOf embedded
      ∧ d.contentChecksum = some item.checksum := by
  obtain ⟨p, hp, hfst⟩ := List.mem_map.mp hm
  subst hfst
  refine ⟨toStoredDoc p.1 p.2, ?_, rfl⟩
  exact List.mem_map_of_mem (fun q => (q.1.id, toStoredDoc q.1 q.2)) hp

/-! ### Claim theorems: run controller -/

/-- C1: in every completed run of `indexAll` in which the dedicated writer
fails (spawn failure, mid-stream death, or non-zero exit — all reported as
`writerOk = false`), the controller synchronously upserts every staged
document after reopening the store, so every item of the current corpus is
retrievable by id afterwards, whatever subset the writer managed to apply
before dying. -/
theorem indexAll_writerFailure_retrievable (E : Embedder) (env : RunEnv)
    (st : Store) (ledger : List String) (items : List IndexableItem)
    (out : RunOutcome) (hfail : env.writerOk = false)
    (hrun : indexAll E env st ledger items = .ok out) :
    ∀ item ∈ items, (fetchOne out.store item.id).isSome = true := by
  intro item hmem
  rcases indexAll_ok_inv E env st ledger items out hrun with
    ⟨hnil, hout⟩ | ⟨hnil, hte, htd, hout⟩ | ⟨hnil, embedded, hph, hout⟩
  · rw [hnil] at hmem
    simp at hmem
  · subst hout
    cases hf : env.fetchOk with
    | false =>
      obtain ⟨hteq, _⟩ := runDiff_fetchFail env st ledger items hf
      rw [hteq] at hte
      exact absurd hte hnil
    | true =>
      have hcl : classifyItem st item = .unchanged :=
        runDiff_classify_of_not_toEmbed env st ledger items item hmem
          (fun hc => by rw [hte] at hc; simp at hc) hf
      obtain ⟨doc, hdoc, _⟩ := (classify_unchanged_iff st item).mp hcl
      simp [hdoc]
  · subst hout
    show (fetchOne (mainOutcome env st items (runDiff env st ledger items)
        embedded).store item.id).isSome = true
    rw [mainOutcome]
    have hnotdel : item.id ∈ (runDiff env st ledger items).toDelete → False :=
      fun hc => runDiff_toDelete_disjoint env st ledger items item.id hc
        (List.mem_map_of_mem (fun i => i.id) hmem)
    rw [fetchOne_applyDeletes_notMem _ _ _ _ hnotdel]
    rw [hfail]
    simp only [Bool.false_eq_true, if_false]
    by_cases hin : item ∈ (runDiff env st ledger items).toEmbed
    · have hne : (runDiff env st ledger items).toEmbed ≠ [] := by
        intro hc
        rw [hc] at hin
        simp at hin
      have hpos : 1 ≤ (runDiff env st ledger items).toEmbed.length := by
        cases hq : (runDiff env st ledger items).toEmbed with
        | nil => exact absurd hq hne
        | cons a l => simp
      have hbs : 1 ≤ determineBatchSize
          (runDiff env st ledger items).toEmbed.length env.freeMem :=
        determineBatchSize_pos _ _ hpos
      have hfst := phase1Embed_fst E (runDiff env st ledger items).toEmbed.length
        (determineBatchSize (runDiff env st ledger items).toEmbed.length env.freeMem)
        (runDiff env st ledger items).toEmbed embedded (le_refl _) hbs hph
      have hkey : item.id ∈ (sentOf embedded).map (fun e => e.1) := by
        rw [sentOf_keys, hfst]
        exact List.mem_map_of_mem (fun i => i.id) hin
      exact isSome_fetchOne_applyUpserts_mem (sentOf embedded) _ item.id hkey
    · cases hf : env.fetchOk with
      | false =>
        obtain ⟨hteq, _⟩ := runDiff_fetchFail env st ledger items hf
        rw [hteq] at hin
        exact absurd hmem hin
      | true =>
        have hcl : classifyItem st item = .unchanged :=
          runDiff_classify_of_not_toEmbed env st ledger items item hmem
            (fun hc => hin hc) hf
        obtain ⟨doc, hdoc, _⟩ := (classify_unchanged_iff st item).mp hcl
        apply isSome_fetchOne_applyUpserts
        apply isSome_fetchOne_applyUpserts
        simp [hdoc]

/-- C3 counterexample: with a provider whose single-item `embed` always
succeeds but whose `embedBatch` always fails, a run over one added item
terminates with a fatal error: in the per-chunk loop of `indexAll`, a batch
failure at batch size at most 16 is rethrown directly, without falling back
to one-item-at-a-time embedding (which here would have succeeded, as the
second conjunct shows). -/
theorem embed_floor_failure_counterexample :
    (batchFailEmbedder.embed "fn alpha").isSome = true ∧
    embedSeq batchFailEmbedder ["fn alpha"] = .ok [[8]] ∧
    indexAll batchFailEmbedder okEnv [] [] [itemA] = .error () := by
  refine ⟨rfl, rfl, ?_⟩
  simp [indexAll, runDiff, diffItems, diffLoop, fetchOne, determineBatchSize,
    phase1Embed, embedChunkLoop, batchFailEmbedder, okEnv, itemA,
    Nat.min_def, Nat.max_def]

/-- C3 corrected: `indexAll` raises a fatal error only when the embedding
provider fails at the minimum batch size: whenever every batch call of at
most 16 texts succeeds, no run terminates with an error — transient batch
failures above the floor are always absorbed by halving.  The
one-item-at-a-time fallback exists only inside `embedBatchWithRetry` (the
remainder-retry path), where it rescues the run whenever single-item
embedding succeeds; in the initial per-chunk prefix loop a batch failure at
size at most 16 propagates directly without attempting single-item calls. -/
theorem indexAll_fatal_only_min_batch (E : Embedder) :
    ((∀ ts : List String, ts.length ≤ 16 → (E.embedBatch ts).isSome = true) →
      ∀ (env : RunEnv) (st : Store) (ledger : List String)
        (items : List IndexableItem),
        indexAll E env st ledger items ≠ .error ()) ∧
    ((∀ t, (E.embed t).isSome = true) →
      ∀ (bs : Nat) (texts : List String), 16 ≤ bs →
        (embedBatchWithRetry E bs texts).isOk = true) := by
  constructor
  · intro h16 env st ledger items hc
    rw [indexAll] at hc
    by_cases hnil : items = []
    · rw [if_pos hnil] at hc
      simp at hc
    · rw [if_neg hnil] at hc
      by_cases hwork : (runDiff env st ledger items).toEmbed.length
          + (runDiff env st ledger items).toDelete.length = 0
      · rw [if_pos hwork] at hc
        simp at hc
      · rw [if_neg hwork] at hc
        obtain ⟨embedded, hph⟩ := exists_ok_of_isOk _
          (phase1Embed_isOk E h16 (runDiff env st ledger items).toEmbed.length
            (determineBatchSize (runDiff env st ledger items).toEmbed.length
              env.freeMem)
            (runDiff env st ledger items).toEmbed (le_refl _))
        rw [hph] at hc
        simp at hc
  · intro hS bs texts hbs
    exact embedBatchWithRetry_isOk_embed_aux E hS (texts.length + bs) bs texts
      (le_refl _) (by omega)

/-- Witness for the C3 amended theorem at a concrete well-behaved provider. -/
theorem indexAll_fatal_only_min_batch_witness :
    indexAll lenEmbedder okEnv [] [] [itemA] ≠ .error () ∧
    (embedBatchWithRetry lenEmbedder 16 ["fn alpha"]).isOk = true := by
  constructor
  · exact (indexAll_fatal_only_min_batch lenEmbedder).1 (fun ts h => rfl)
      okEnv [] [] [itemA]
  · exact (indexAll_fatal_only_min_batch lenEmbedder).2 (fun t => rfl)
      16 ["fn alpha"] (le_refl 16)

/-- C5: whenever the provider satisfies its contract (batch and single calls
return vectors positionally derived from their input texts by one function
`f`), every level of the embedding phase preserves strict positional
correspondence and produces exactly one vector per text: `embedBatchWithRetry`
(successful chunks, halved retries and the one-item fallback alike),
the per-chunk prefix loop, and the full Phase-1 pipeline, which pairs
item `j` with vector `j`. -/
theorem embedding_order_preserved (E : Embedder) (f : String → List Int)
    (hB : ∀ ts vs, E.embedBatch ts = some vs → vs = ts.map f)
    (hS : ∀ t v, E.embed t = some v → v = f t) :
    (∀ (bs : Nat) (texts : List String) (vs : List (List Int)), 1 ≤ bs →
      embedBatchWithRetry E bs texts = .ok vs → vs = texts.map f) ∧
    (∀ (cbs : Nat) (texts : List String) (vs : List (List Int)),
      embedChunkLoop E texts cbs = .ok vs → vs = texts.map f) ∧
    (∀ (bs : Nat) (toEmbed : List IndexableItem)
        (ps : List (IndexableItem × List Int)), 1 ≤ bs →
      phase1Embed E bs toEmbed = .ok ps →
      ps = toEmbed.map (fun it => (it, f it.text))) := by
  refine ⟨?_, ?_, ?_⟩
  · intro bs texts vs hbs h
    exact embedBatchWithRetry_ok_aux E f hB hS (texts.length + bs) bs texts vs
      (le_refl _) hbs h
  · intro cbs texts vs h
    exact embedChunkLoop_ok E f hB hS cbs texts vs h
  · intro bs toEmbed ps hbs h
    exact phase1Embed_ok E f hB hS toEmbed.length bs toEmbed ps (le_refl _) hbs h

/-- Witness for C5 at a concrete provider and a concrete two-item input
(batch size 1, so the pipeline takes two chunks). -/
theorem embedding_order_preserved_witness :
    phase1Embed lenEmbedder 1 [itemA, itemB]
      = .ok ([itemA, itemB].map (fun it => (it, [Int.ofNat it.text.length]))) := by
  obtain ⟨ps, hps⟩ := exists_ok_of_isOk _
    (phase1Embed_isOk lenEmbedder (fun ts h => rfl) 2 1 [itemA, itemB] (by simp))
  rw [hps]
  rw [(embedding_order_preserved lenEmbedder (fun t => [Int.ofNat t.length])
    (fun ts vs h => (Option.some.inj h).symm)
    (fun t v h => (Option.some.inj h).symm)).2.2 1 [itemA, itemB] ps
    (le_refl 1) hps]

/-- Witness for C1: a concrete run in which the writer applies nothing and
reports failure; the item is nevertheless retrievable afterwards. -/
theorem indexAll_writerFailure_retrievable_witness :
    indexAll constEmbedder writerDownEnv [] [] [itemA]
      = .ok ⟨[("a", toStoredDoc itemA [7])], ["a"], ⟨1, 0, 0, 0⟩,
          [.upsertEv "a" (toStoredDoc itemA [7])]⟩ ∧
    (fetchOne [("a", toStoredDoc itemA [7])] itemA.id).isSome = true := by
  have hrun : indexAll constEmbedder writerDownEnv [] [] [itemA]
      = .ok ⟨[("a", toStoredDoc itemA [7])], ["a"], ⟨1, 0, 0, 0⟩,
          [.upsertEv "a" (toStoredDoc itemA [7])]⟩ := by
    simp [indexAll, runDiff, diffItems, diffLoop, fetchOne, determineBatchSize,
      phase1Embed, embedChunkLoop, pairEmb, sentOf, mainOutcome, applyUpserts,
      applyDeletes, upsertOne, toStoredDoc, constEmbedder, writerDownEnv, itemA,
      Except.map, Function.comp, Nat.min_def, Nat.max_def]
  refine ⟨hrun, ?_⟩
  exact indexAll_writerFailure_retrievable constEmbedder writerDownEnv [] []
    [itemA] ⟨[("a", toStoredDoc itemA [7])], ["a"], ⟨1, 0, 0, 0⟩,
      [.upsertEv "a" (toStoredDoc itemA [7])]⟩ rfl hrun itemA (by simp)

theorem toEmbed_subset (env : RunEnv) (st : Store) (ledger : List String)
    (items : List IndexableItem) :
    ∀ item ∈ (runDiff env st ledger items).toEmbed, item ∈ items := by
  intro item hm
  cases hf : env.fetchOk with
  | false =>
    obtain ⟨hteq, _⟩ := runDiff_fetchFail env st ledger items hf
    rw [hteq] at hm
    exact hm
  | true =>
    rw [runDiff_toEmbed_eq env st ledger items hf] at hm
    exact List.mem_of_mem_filter hm

theorem toEmbed_ids_nodup (env : RunEnv) (st : Store) (ledger : List String)
    (items : List IndexableItem)
    (hnd : (items.map (fun i => i.id)).Nodup) :
    ((runDiff env st ledger items).toEmbed.map (fun i => i.id)).Nodup := by
  cases hf : env.fetchOk with
  | false =>
    obtain ⟨hteq, _⟩ := runDiff_fetchFail env st ledger items hf
    rw [hteq]
    exact hnd
  | true =>
    rw [runDiff_toEmbed_eq env st ledger items hf]
    exact hnd.sublist ((List.filter_sublist items).map (fun i => i.id))

/-- After any completed run whose writer applied everything it was sent,
every current item is stored under its id with its own content checksum. -/
theorem post_run_fetch (E : Embedder) (env : RunEnv) (st : Store)
    (ledger : List String) (items : List IndexableItem) (out : RunOutcome)
    (hnd : (items.map (fun i => i.id)).Nodup)
    (happ : ∀ l, env.writerApplied l = l)
    (hrun : indexAll E env st ledger items = .ok out) :
    ∀ item ∈ items, ∃ doc, fetchOne out.store item.id = some doc
      ∧ doc.contentChecksum = some item.checksum := by
  intro item hmem
  rcases indexAll_ok_inv E env st ledger items out hrun with
    ⟨hnil, hout⟩ | ⟨hnil, hte, htd, hout⟩ | ⟨hnil, embedded, hph, hout⟩
  · rw [hnil] at hmem
    simp at hmem
  · subst hout
    cases hf : env.fetchOk with
    | false =>
      obtain ⟨hteq, _⟩ := runDiff_fetchFail env st ledger items hf
      rw [hteq] at hte
      exact absurd hte hnil
    | true =>
      exact (classify_unchanged_iff st item).mp
        (runDiff_classify_of_not_toEmbed env st ledger items item hmem
          (fun hc => by rw [hte] at hc; simp at hc) hf)
  · subst hout
    show ∃ doc, fetchOne (mainOutcome env st items (runDiff env st ledger items)
        embedded).store item.id = some doc ∧ doc.contentChecksum = some item.checksum
    rw [mainOutcome]
    have hnotdel : item.id ∈ (runDiff env st ledger items).toDelete → False :=
      fun hc => runDiff_toDelete_disjoint env st ledger items item.id hc
        (List.mem_map_of_mem (fun i => i.id) hmem)
    rw [fetchOne_applyDeletes_notMem _ _ _ _ hnotdel]
    rw [happ (sentOf embedded)]
    by_cases hin : item ∈ (runDiff env st ledger items).toEmbed
    · have hne : (runDiff env st ledger items).toEmbed ≠ [] := by
        intro hc
        rw [hc] at hin
        simp at hin
      have hpos : 1 ≤ (runDiff env st ledger items).toEmbed.length := by
        cases hq : (runDiff env st ledger items).toEmbed with
        | nil => exact absurd hq hne
        | cons a l => simp
      have hbs : 1 ≤ determineBatchSize
          (runDiff env st ledger items).toEmbed.length env.freeMem :=
        determineBatchSize_pos _ _ hpos
      have hfst := phase1Embed_fst E (runDiff env st ledger items).toEmbed.length
        (determineBatchSize (runDiff env st ledger items).toEmbed.length env.freeMem)
        (runDiff env st ledger items).toEmbed embedded (le_refl _) hbs hph
      have hkeysnd : ((sentOf embedded).map (fun e => e.1)).Nodup := by
        rw [sentOf_keys, hfst]
        exact toEmbed_ids_nodup env st ledger items hnd
      obtain ⟨d, hd, hdc⟩ := sentOf_mem_of_fst embedded item (by rw [hfst]; exact hin)
      cases hw : env.writerOk with
      | true =>
        simp only [hw, if_true]
        rw [applyUpserts_nil]
        refine ⟨d, ?_, hdc⟩
        exact fetchOne_applyUpserts_mem_nodup (sentOf embedded) st item.id d
          hkeysnd hd
      | false =>
        simp only [hw, Bool.false_eq_true, if_false]
        refine ⟨d, ?_, hdc⟩
        exact fetchOne_applyUpserts_mem_nodup (sentOf embedded)
          (applyUpserts st (sentOf embedded)) item.id d hkeysnd hd
    · cases hf : env.fetchOk with
      | false =>
        obtain ⟨hteq, _⟩ := runDiff_fetchFail env st ledger items hf
        rw [hteq] at hin
        exact absurd hmem hin
      | true =>
        obtain ⟨doc, hdoc, hdc⟩ := (classify_unchanged_iff st item).mp
          (runDiff_classify_of_not_toEmbed env st ledger items item hmem
            (fun hc => hin hc) hf)
        have hidnot : item.id ∈ (sentOf embedded).map (fun e => e.1) → False := by
          intro hc
          have hne : (runDiff env st ledger items).toEmbed ≠ [] := by
            intro hq
            rw [sentOf_keys] at hc
            rw [hq] at hph
            rw [phase1Embed] at hph
            simp at hph
            rw [hph] at hc
            simp at hc
          have hpos : 1 ≤ (runDiff env st ledger items).toEmbed.length := by
            cases hq : (runDiff env st ledger items).toEmbed with
            | nil => exact absurd hq hne
            | cons a l => simp
          have hbs : 1 ≤ determineBatchSize
              (runDiff env st ledger items).toEmbed.length env.freeMem :=
            determineBatchSize_pos _ _ hpos
          have hfst := phase1Embed_fst E
            (runDiff env st ledger items).toEmbed.length
            (determineBatchSize (runDiff env st ledger items).toEmbed.length
              env.freeMem)
            (runDiff env st ledger items).toEmbed embedded (le_refl _) hbs hph
          rw [sentOf_keys, hfst] at hc
          obtain ⟨it2, hit2, hit2id⟩ := List.mem_map.mp hc
          have hit2items : it2 ∈ items := toEmbed_subset env st ledger items it2 hit2
          have : it2 = item :=
            List.inj_on_of_nodup_map hnd hit2items hmem hit2id
          rw [this] at hit2
          exact hin hit2
        cases hw : env.writerOk with
        | true =>
          simp only [hw, if_true]
          rw [applyUpserts_nil]
          refine ⟨doc, ?_, hdc⟩
          rw [fetchOne_applyUpserts_notMem (sentOf embedded) st item.id hidnot]
          exact hdoc
        | false =>
          simp only [hw, Bool.false_eq_true, if_false]
          refine ⟨doc, ?_, hdc⟩
          rw [fetchOne_applyUpserts_notMem (sentOf embedded)
            (applyUpserts st (sentOf embedded)) item.id hidnot]
          rw [fetchOne_applyUpserts_notMem (sentOf embedded) st item.id hidnot]
          exact hdoc

/-- C4: running the pipeline a second time on an unchanged corpus (distinct
ids, a first run whose writes were all applied, a readable store) yields
`unchanged = N` and `added = updated = removed = 0`, leaves the stored
content untouched, and performs no storage mutation at all (empty trace). -/
theorem indexAll_idempotent (E : Embedder) (env1 env2 : RunEnv) (st : Store)
    (ledger : List String) (items : List IndexableItem) (out : RunOutcome)
    (hnd : (items.map (fun i => i.id)).Nodup)
    (happ : ∀ l, env1.writerApplied l = l)
    (hf2 : env2.fetchOk = true)
    (hrun : indexAll E env1 st ledger items = .ok out) :
    indexAll E env2 out.store out.ledger items
      = .ok ⟨out.store, items.map (fun i => i.id), ⟨0, 0, 0, items.length⟩, []⟩ := by
  by_cases hnil : items = []
  · subst hnil
    rw [indexAll, if_pos rfl]
    rfl
  · have hall : ∀ item ∈ items, classifyItem out.store item = .unchanged := by
      intro item hm
      exact (classify_unchanged_iff _ _).mpr
        (post_run_fetch E env1 st ledger items out hnd happ hrun item hm)
    have hte : (runDiff env2 out.store out.ledger items).toEmbed = [] := by
      rw [runDiff_toEmbed_eq env2 out.store out.ledger items hf2]
      apply List.filter_eq_nil_iff.mpr
      intro a ha
      simp [hall a ha]
    have hld : out.ledger = items.map (fun i => i.id) := by
      rcases indexAll_ok_inv E env1 st ledger items out hrun with
        ⟨h1, _⟩ | ⟨_, _, _, hout⟩ | ⟨_, _, _, hout⟩
      · exact absurd h1 hnil
      · rw [hout]
      · rw [hout]
        rfl
    have htd : (runDiff env2 out.store out.ledger items).toDelete = [] := by
      rw [runDiff_toDelete_eq env2 out.store out.ledger items hf2, hld]
      apply List.filter_eq_nil_iff.mpr
      intro a ha
      simp [ha]
    have huc : (runDiff env2 out.store out.ledger items).unchanged
        = items.length := by
      rw [runDiff_unchanged_eq env2 out.store out.ledger items hf2]
      apply List.countP_eq_length.mpr
      intro a ha
      simp [hall a ha]
    have hcond : (runDiff env2 out.store out.ledger items).toEmbed.length
        + (runDiff env2 out.store out.ledger items).toDelete.length = 0 := by
      rw [hte, htd]
      rfl
    rw [indexAll, if_neg hnil, if_pos hcond, huc]

/-- Witness for C4: a concrete second run over the state left by a concrete
first run reports one unchanged item, zero deltas, and an unchanged store. -/
theorem indexAll_idempotent_witness :
    indexAll constEmbedder okEnv [("a", toStoredDoc itemA [7])] ["a"] [itemA]
      = .ok ⟨[("a", toStoredDoc itemA [7])], ["a"], ⟨0, 0, 0, 1⟩, []⟩ := by
  have hrun : indexAll constEmbedder okEnv [] [] [itemA]
      = .ok ⟨[("a", toStoredDoc itemA [7])], ["a"], ⟨1, 0, 0, 0⟩,
          [.upsertEv "a" (toStoredDoc itemA [7])]⟩ := by
    simp [indexAll, runDiff, diffItems, diffLoop, fetchOne, determineBatchSize,
      phase1Embed, embedChunkLoop, pairEmb, sentOf, mainOutcome, applyUpserts,
      applyDeletes, upsertOne, toStoredDoc, constEmbedder, okEnv, itemA,
      Except.map, Function.comp, Nat.min_def, Nat.max_def]
  have h2 := indexAll_idempotent constEmbedder okEnv okEnv [] [] [itemA]
    ⟨[("a", toStoredDoc itemA [7])], ["a"], ⟨1, 0, 0, 0⟩,
      [.upsertEv "a" (toStoredDoc itemA [7])]⟩
    (by simp [itemA]) (fun l => rfl) rfl hrun
  simpa [itemA] using h2

/-- C8 counterexample (the boundary case): after indexing one item, running
`indexAll` with the corpus emptied (removing that one previously-indexed
item, so the claim demands `removed = 1` and the id gone) takes the
`total === 0` early return: it reports `removed = 0`, issues no delete, and
the removed item remains fetchable. -/
theorem removal_boundary_counterexample :
    indexAll constEmbedder okEnv [] [] [itemA]
      = .ok ⟨[("a", toStoredDoc itemA [7])], ["a"], ⟨1, 0, 0, 0⟩,
          [.upsertEv "a" (toStoredDoc itemA [7])]⟩ ∧
    indexAll constEmbedder okEnv [("a", toStoredDoc itemA [7])] ["a"] []
      = .ok ⟨[("a", toStoredDoc itemA [7])], [], ⟨0, 0, 0, 0⟩, []⟩ ∧
    (fetchOne [("a", toStoredDoc itemA [7])] "a").isSome = true := by
  refine ⟨?_, ?_, by simp [fetchOne]⟩
  · simp [indexAll, runDiff, diffItems, diffLoop, fetchOne, determineBatchSize,
      phase1Embed, embedChunkLoop, pairEmb, sentOf, mainOutcome, applyUpserts,
      applyDeletes, upsertOne, toStoredDoc, constEmbedder, okEnv, itemA,
      Except.map, Function.comp, Nat.min_def, Nat.max_def]
  · rw [indexAll, if_pos rfl]

/-- C8 corrected: for a nonempty remaining corpus and a readable store,
removing the previously-indexed ids `removedIds` (distinct, disjoint from
the current ids, with their deletes succeeding) yields `removed =
|removedIds|` on the next run and leaves those ids unfetchable.  The
boundary case of the original claim fails: with an empty corpus `indexAll`
returns `removed = 0` and deletes nothing (see the counterexample). -/
theorem removal_precision (E : Embedder) (env : RunEnv) (st : Store)
    (items : List IndexableItem) (removedIds : List String) (out : RunOutcome)
    (hne : items ≠ [])
    (hf : env.fetchOk = true)
    (hnd : removedIds.Nodup)
    (hdisj : ∀ r ∈ removedIds, (r ∈ items.map (fun i => i.id)) → False)
    (hdel : ∀ r ∈ removedIds, env.deleteOk r = true)
    (hrun : indexAll E env st (items.map (fun i => i.id) ++ removedIds) items
      = .ok out) :
    out.result.removed = removedIds.length ∧
    ∀ r ∈ removedIds, fetchOne out.store r = none := by
  have htdeq : (runDiff env st (items.map (fun i => i.id) ++ removedIds)
      items).toDelete = removedIds := by
    rw [runDiff_toDelete_eq _ _ _ _ hf, List.filter_append]
    have h1 : (items.map (fun i => i.id)).filter
        (fun p => !((items.map (fun i => i.id)).contains p)) = [] := by
      apply List.filter_eq_nil_iff.mpr
      intro a ha
      simp [ha]
    have h2 : removedIds.filter
        (fun p => !((items.map (fun i => i.id)).contains p)) = removedIds := by
      apply List.filter_eq_self.mpr
      intro a ha
      simpa using hdisj a ha
    rw [h1, h2, List.nil_append]
  rcases indexAll_ok_inv E env st (items.map (fun i => i.id) ++ removedIds)
      items out hrun with
    ⟨hnil, hout⟩ | ⟨hnil, hte, htd, hout⟩ | ⟨hnil, embedded, hph, hout⟩
  · exact absurd hnil hne
  · have hrem : removedIds = [] := by
      rw [htdeq] at htd
      exact htd
    subst hout
    constructor
    · rw [hrem]
      rfl
    · intro r hr
      rw [hrem] at hr
      simp at hr
  · subst hout
    constructor
    · show (runDiff env st (items.map (fun i => i.id) ++ removedIds)
          items).toDelete.length = removedIds.length
      rw [htdeq]
    · intro r hr
      show fetchOne (mainOutcome env st items
          (runDiff env st (items.map (fun i => i.id) ++ removedIds) items)
          embedded).store r = none
      rw [mainOutcome]
      apply fetchOne_applyDeletes_mem
      · rw [htdeq]
        exact hr
      · exact hdel r hr

/-- Witness for the C8 amended theorem: one current item, one stale id whose
document is in the store; the run reports `removed = 1` and the stale id is
no longer fetchable. -/
theorem removal_precision_witness :
    indexAll constEmbedder okEnv [("b", toStoredDoc itemB [7])]
        ([itemA].map (fun i => i.id) ++ ["b"]) [itemA]
      = .ok ⟨[("a", toStoredDoc itemA [7])], ["a"], ⟨1, 0, 1, 0⟩,
          [.upsertEv "a" (toStoredDoc itemA [7]), .deleteEv "b"]⟩ ∧
    (⟨[("a", toStoredDoc itemA [7])], ["a"], ⟨1, 0, 1, 0⟩,
        [.upsertEv "a" (toStoredDoc itemA [7]), .deleteEv "b"]⟩
      : RunOutcome).result.removed = 1 ∧
    fetchOne ([("a", toStoredDoc itemA [7])] : Store) "b" = none := by
  have hrun : indexAll constEmbedder okEnv [("b", toStoredDoc itemB [7])]
      ([itemA].map (fun i => i.id) ++ ["b"]) [itemA]
      = .ok ⟨[("a", toStoredDoc itemA [7])], ["a"], ⟨1, 0, 1, 0⟩,
          [.upsertEv "a" (toStoredDoc itemA [7]), .deleteEv "b"]⟩ := by
    simp [indexAll, runDiff, diffItems, diffLoop, fetchOne, determineBatchSize,
      phase1Embed, embedChunkLoop, pairEmb, sentOf, mainOutcome, applyUpserts,
      applyDeletes, upsertOne, deleteOne, toStoredDoc, constEmbedder, okEnv,
      itemA, itemB, Except.map, Function.comp, Nat.min_def, Nat.max_def]
  have h2 := removal_precision constEmbedder okEnv
    [("b", toStoredDoc itemB [7])] [itemA] ["b"]
    ⟨[("a", toStoredDoc itemA [7])], ["a"], ⟨1, 0, 1, 0⟩,
      [.upsertEv "a" (toStoredDoc itemA [7]), .deleteEv "b"]⟩
    (by simp) rfl (by simp)
    (by intro r hr hm; simp [itemA] at hr hm; rw [hr] at hm; exact absurd hm (by simp))
    (fun r hr => rfl) hrun
  exact ⟨hrun, h2.1, h2.2 "b" (by simp)⟩

/-- C9: within a completed run of `indexAll`, every storage mutation trace
consists of all its upserts (worker writes and any synchronous fallback
writes) followed by all its deletes: no delete precedes any upsert of the
same run. -/
theorem deletes_after_upserts (E : Embedder) (env : RunEnv) (st : Store)
    (ledger : List String) (items : List IndexableItem) (out : RunOutcome)
    (hrun : indexAll E env st ledger items = .ok out) :
    out.trace = out.trace.filter (fun e => e.isUpsert)
      ++ out.trace.filter (fun e => e.isDelete) := by
  have hsplit : ∀ a b : List StoreEvent,
      (∀ e ∈ a, e.isUpsert = true) → (∀ e ∈ b, e.isDelete = true) →
      a ++ b = (a ++ b).filter (fun e => e.isUpsert)
        ++ (a ++ b).filter (fun e => e.isDelete) := by
    intro a b ha hb
    have hnotb : ∀ e ∈ b, ¬(StoreEvent.isUpsert e = true) := by
      intro e he
      have := hb e he
      cases e with
      | upsertEv i d => simp [StoreEvent.isDelete] at this
      | deleteEv i => simp [StoreEvent.isUpsert]
    have hnota : ∀ e ∈ a, ¬(StoreEvent.isDelete e = true) := by
      intro e he
      have := ha e he
      cases e with
      | upsertEv i d => simp [StoreEvent.isDelete]
      | deleteEv i => simp [StoreEvent.isUpsert] at this
    rw [List.filter_append, List.filter_append]
    rw [List.filter_eq_self.mpr ha, List.filter_eq_nil_iff.mpr hnotb,
      List.filter_eq_nil_iff.mpr hnota, List.filter_eq_self.mpr hb,
      List.append_nil, List.nil_append]
  rcases indexAll_ok_inv E env st ledger items out hrun with
    ⟨hnil, hout⟩ | ⟨hnil, hte, htd, hout⟩ | ⟨hnil, embedded, hph, hout⟩
  · subst hout
    rfl
  · subst hout
    rfl
  · subst hout
    show (mainOutcome env st items (runDiff env st ledger items) embedded).trace
      = _
    rw [mainOutcome]
    have hups : ∀ e ∈ (env.writerApplied (sentOf embedded)).map
          (fun e => StoreEvent.upsertEv e.1 e.2)
        ++ (if env.writerOk then [] else sentOf embedded).map
          (fun e => StoreEvent.upsertEv e.1 e.2),
        e.isUpsert = true := by
      intro e he
      rcases List.mem_append.mp he with h1 | h1
      · obtain ⟨p, _, hp⟩ := List.mem_map.mp h1
        rw [← hp]
        rfl
      · obtain ⟨p, _, hp⟩ := List.mem_map.mp h1
        rw [← hp]
        rfl
    have hdels : ∀ e ∈ (runDiff env st ledger items).toDelete.map
        (fun i => StoreEvent.deleteEv i), e.isDelete = true := by
      intro e he
      obtain ⟨p, _, hp⟩ := List.mem_map.mp he
      rw [← hp]
      rfl
    exact hsplit _ _ hups hdels

/-- Witness for C9: a concrete run with one upsert and one stale delete; its
trace is its upserts followed by its deletes. -/
theorem deletes_after_upserts_witness :
    indexAll constEmbedder okEnv [("b", toStoredDoc itemB [7])] ["b"] [itemA]
      = .ok ⟨[("a", toStoredDoc itemA [7])], ["a"], ⟨1, 0, 1, 0⟩,
          [.upsertEv "a" (toStoredDoc itemA [7]), .deleteEv "b"]⟩ ∧
    ([StoreEvent.upsertEv "a" (toStoredDoc itemA [7]), StoreEvent.deleteEv "b"]
      = [StoreEvent.upsertEv "a" (toStoredDoc itemA [7]),
          StoreEvent.deleteEv "b"].filter (fun e => e.isUpsert)
        ++ [StoreEvent.upsertEv "a" (toStoredDoc itemA [7]),
            StoreEvent.deleteEv "b"].filter (fun e => e.isDelete)) := by
  have hrun : indexAll constEmbedder okEnv [("b", toStoredDoc itemB [7])] ["b"]
      [itemA]
      = .ok ⟨[("a", toStoredDoc itemA [7])], ["a"], ⟨1, 0, 1, 0⟩,
          [.upsertEv "a" (toStoredDoc itemA [7]), .deleteEv "b"]⟩ := by
    simp [indexAll, runDiff, diffItems, diffLoop, fetchOne, determineBatchSize,
      phase1Embed, embedChunkLoop, pairEmb, sentOf, mainOutcome, applyUpserts,
      applyDeletes, upsertOne, deleteOne, toStoredDoc, constEmbedder, okEnv,
      itemA, itemB, Except.map, Function.comp, Nat.min_def, Nat.max_def]
  refine ⟨hrun, ?_⟩
  exact deletes_after_upserts constEmbedder okEnv [("b", toStoredDoc itemB [7])]
    ["b"] [itemA]
    ⟨[("a", toStoredDoc itemA [7])], ["a"], ⟨1, 0, 1, 0⟩,
      [.upsertEv "a" (toStoredDoc itemA [7]), .deleteEv "b"]⟩ hrun

/-- C10: `delete(id)` on an open store returns `false` and leaves the store
unchanged when no document with the encoded id is present; when one is
present it returns `true`, the encoded id is no longer fetchable, and every
other key is untouched (exactly that document was removed). -/
theorem delete_spec (encode : String → String) (st : Store) (id : String) :
    (fetchOne st (encode id) = none → deleteById encode st id = (false, st)) ∧
    (∀ d, fetchOne st (encode id) = some d →
      (deleteById encode st id).1 = true ∧
      fetchOne (deleteById encode st id).2 (encode id) = none ∧
      ∀ k, ¬(k = encode id) →
        fetchOne (deleteById encode st id).2 k = fetchOne st k) := by
  constructor
  · intro h
    simp [deleteById, h]
  · intro d h
    refine ⟨by simp [deleteById, h], ?_, ?_⟩
    · simp only [deleteById, h]
      exact fetchOne_deleteOne_self st (encode id)
    · intro k hk
      simp only [deleteById, h]
      exact fetchOne_deleteOne_ne st (encode id) k hk

/-- Witness for C10 with the identity encoding: deleting an absent id
returns `false` and changes nothing; deleting a present id returns `true`,
makes it unfetchable, and preserves the other key. -/
theorem delete_spec_witness :
    deleteById (fun s => s) [("a", toStoredDoc itemA [7]),
        ("c", toStoredDoc itemB [7])] "b"
      = (false, [("a", toStoredDoc itemA [7]), ("c", toStoredDoc itemB [7])]) ∧
    (deleteById (fun s => s) [("a", toStoredDoc itemA [7]),
        ("c", toStoredDoc itemB [7])] "a").1 = true ∧
    fetchOne (deleteById (fun s => s) [("a", toStoredDoc itemA [7]),
        ("c", toStoredDoc itemB [7])] "a").2 "a" = none ∧
    fetchOne (deleteById (fun s => s) [("a", toStoredDoc itemA [7]),
        ("c", toStoredDoc itemB [7])] "a").2 "c"
      = fetchOne [("a", toStoredDoc itemA [7]),
          ("c", toStoredDoc itemB [7])] "c" := by
  refine ⟨?_, ?_, ?_, ?_⟩
  · exact (delete_spec (fun s => s) _ "b").1 (by simp [fetchOne])
  · exact ((delete_spec (fun s => s) _ "a").2 (toStoredDoc itemA [7])
      (by simp [fetchOne])).1
  · exact ((delete_spec (fun s => s) _ "a").2 (toStoredDoc itemA [7])
      (by simp [fetchOne])).2.1
  · exact ((delete_spec (fun s => s) _ "a").2 (toStoredDoc itemA [7])
      (by simp [fetchOne])).2.2 "c" (by simp)

end Drew



